import Mathlib

/-!
Verification of the knight shortest-path core of `knight_paths.py`.

The program part embedded here (shallowly, from the source):
* `KnightPathFinder.knight_moves`, `board_size`, `is_valid`
* `KnightPathFinder.bfs_paths` (the breadth-first all-shortest-paths search)
* `KnightPathFinder.alg_to_coord` and `KnightPathFinder.coord_to_alg`

Python integers become `ℤ`; a board cell `(row, col)` becomes `ℤ × ℤ`; the
Python `deque` of paths becomes a `List` used as a FIFO queue (pop at the
head, push at the tail); the Python `set` of visited cells becomes a `List`
to which an element is consed exactly when it is not already a member, so
list membership coincides with set membership; `ValueError` raising
functions return `Except String`.
-/

/-- A board cell `(row, col)`, mirroring the Python pair of ints. -/
abbrev Cell := ℤ × ℤ

/-- The eight knight move offsets, in the exact order of
`KnightPathFinder.__init__`. -/
def knight_moves : List Cell :=
  [(2, 1), (1, 2), (-1, 2), (-2, 1), (-2, -1), (-1, -2), (1, -2), (2, -1)]

/-- `self.board_size = 8`. -/
def board_size : ℤ := 8

/-- `KnightPathFinder.is_valid`: `0 <= row < board_size and 0 <= col < board_size`. -/
def is_valid (position : Cell) : Bool :=
  decide (0 ≤ position.1 ∧ position.1 < board_size ∧
          0 ≤ position.2 ∧ position.2 < board_size)

/-- `next_position = (current[0] + move[0], current[1] + move[1])`. -/
def next_position (current move : Cell) : Cell :=
  (current.1 + move.1, current.2 + move.2)

/-- The inner `for move in self.knight_moves` loop of `bfs_paths`: the list of
queue entries `path + [next_position]` appended for one dequeued `path` with
last cell `current` (only valid next positions are enqueued). -/
def extensions (path : List Cell) (current : Cell) : List (List Cell) :=
  knight_moves.filterMap fun move =>
    let np := next_position current move
    if is_valid np then some (path ++ [np]) else none

/-- The `while queue:` loop of `KnightPathFinder.bfs_paths`, with an explicit
fuel argument bounding the number of iterations.  Each iteration pops the
head `path`, reads `current = path[-1]` (queue entries are always nonempty,
so the `getD` default is never used), and follows the source branch for
branch: matched end cell, already visited cell, or expansion.  The fuel
`600` used by `bfs_paths` exceeds the largest possible number of iterations
(at most `9 * 65 + 1 = 586`, see `bfs_loop_spec`), so the loop always drains
the queue exactly as the unbounded Python loop does. -/
def bfs_loop (endc : Cell) :
    ℕ → List (List Cell) → List Cell → List (List Cell) → Option ℕ →
    List (List Cell)
  | 0, _, _, paths, _ => paths
  | _ + 1, [], _, paths, _ => paths
  | fuel + 1, path :: queue, visited, paths, min_length =>
    let current := path.getLast?.getD (0, 0)
    if current = endc then
      match min_length with
      | none => bfs_loop endc fuel queue visited (paths ++ [path]) (some path.length)
      | some m =>
        if path.length = m then
          bfs_loop endc fuel queue visited (paths ++ [path]) (some m)
        else
          bfs_loop endc fuel queue visited paths (some m)
    else if current ∈ visited then
      bfs_loop endc fuel queue visited paths min_length
    else
      bfs_loop endc fuel (queue ++ extensions path current) (current :: visited)
        paths min_length

/-- `KnightPathFinder.bfs_paths`: BFS from a queue holding the single path
`[start]`, empty visited set, no collected paths, no minimum length yet. -/
def bfs_paths (start endc : Cell) : List (List Cell) :=
  bfs_loop endc 600 [[start]] [] [] none

/-- `KnightPathFinder.alg_to_coord`.  `re.match` with the pattern
`^([a-hA-H])([1-8])$` matches a letter in `a..h` (either case) followed by
a digit in `1..8`, where Python's `$` anchor matches at the end of the
string or just before a single newline that ends the string: the accepted
inputs are exactly the two-character strings `fr` and the three-character
strings `fr` + newline.  On a match the column is
`files.index(file_char.lower())` and the row is `int(rank_char) - 1`.
Any other input raises `ValueError`. -/
def alg_to_coord (alg : String) : Except String Cell :=
  match alg.data with
  | [file_char, rank_char] =>
    if (('a' ≤ file_char ∧ file_char ≤ 'h') ∨ ('A' ≤ file_char ∧ file_char ≤ 'H')) ∧
        ('1' ≤ rank_char ∧ rank_char ≤ '8') then
      Except.ok (((rank_char.toNat : ℤ) - ('1'.toNat : ℤ)),
        (("abcdefgh".data.indexOf file_char.toLower : ℤ)))
    else
      Except.error ("Invalid algebraic notation: " ++ alg)
  | [file_char, rank_char, '\n'] =>
    if (('a' ≤ file_char ∧ file_char ≤ 'h') ∨ ('A' ≤ file_char ∧ file_char ≤ 'H')) ∧
        ('1' ≤ rank_char ∧ rank_char ≤ '8') then
      Except.ok (((rank_char.toNat : ℤ) - ('1'.toNat : ℤ)),
        (("abcdefgh".data.indexOf file_char.toLower : ℤ)))
    else
      Except.error ("Invalid algebraic notation: " ++ alg)
  | _ => Except.error ("Invalid algebraic notation: " ++ alg)

/-- `KnightPathFinder.coord_to_alg`: for an in-range cell, the file letter
`files[col]` followed by the decimal digit of `row + 1` (a single digit,
since `1 ≤ row + 1 ≤ 8`); out of range raises `ValueError`. -/
def coord_to_alg (coord : Cell) : Except String String :=
  let row := coord.1
  let col := coord.2
  if 0 ≤ row ∧ row < 8 ∧ 0 ≤ col ∧ col < 8 then
    Except.ok (String.mk ["abcdefgh".data.getD col.toNat 'a',
      Char.ofNat ('0'.toNat + (row.toNat + 1))])
  else
    Except.error ("Invalid coordinate: " ++ toString coord)

/-!
Mathematical model of knight walks, used to state and prove the claims.
A walk is recorded as the list of visited cells (the program's `Path`): a
walk with `n` cells makes `n - 1` knight moves.
-/

/-- The valid knight-move targets of a cell, in knight-move order: the cells
actually enqueued when `current` is expanded. -/
def nbrs (current : Cell) : List Cell :=
  knight_moves.filterMap fun move =>
    let np := next_position current move
    if is_valid np then some np else none

/-- One legal knight step of the search graph: the displacement from `a` to
`b` is a knight move offset and `b` is on the board. -/
def valid_step (a b : Cell) : Prop :=
  (b.1 - a.1, b.2 - a.2) ∈ knight_moves ∧ is_valid b = true

instance (a b : Cell) : Decidable (valid_step a b) :=
  inferInstanceAs (Decidable ((b.1 - a.1, b.2 - a.2) ∈ knight_moves ∧ is_valid b = true))

/-- A knight walk from `s` to `e`: nonempty, starts at `s`, ends at `e`,
every consecutive pair a legal knight step. -/
def IsWalk (s e : Cell) (p : List Cell) : Prop :=
  p.head? = some s ∧ p.getLast? = some e ∧ p.Chain' valid_step

instance decChainValidStep : ∀ p : List Cell, Decidable (p.Chain' valid_step)
  | [] => isTrue List.chain'_nil
  | [a] => isTrue (List.chain'_singleton a)
  | a :: b :: t =>
    haveI := decChainValidStep (b :: t)
    decidable_of_iff (valid_step a b ∧ (b :: t).Chain' valid_step)
      List.chain'_cons.symm

instance (s e : Cell) (p : List Cell) : Decidable (IsWalk s e p) :=
  inferInstanceAs (Decidable (p.head? = some s ∧ p.getLast? = some e ∧ p.Chain' valid_step))

/-- A walk from `s` to `c` that avoids the search's end cell `e` everywhere
except possibly at its final cell (`e`-free walk). -/
def IsEFW (s e c : Cell) (p : List Cell) : Prop :=
  IsWalk s c p ∧ e ∉ p.dropLast

instance (s e c : Cell) (p : List Cell) : Decidable (IsEFW s e c p) :=
  inferInstanceAs (Decidable (IsWalk s c p ∧ e ∉ p.dropLast))

/-- `n` is the number of cells of the shortest knight walks from `s` to `e`
(the graph-theoretic distance in moves is `n - 1`). -/
def IsShortest (s e : Cell) (n : ℕ) : Prop :=
  (∃ p, IsWalk s e p ∧ p.length = n) ∧ ∀ p, IsWalk s e p → n ≤ p.length

/-- `n` is the number of cells of the shortest `e`-free walks from `s`
to `c`. -/
def MinEFW (s e c : Cell) (n : ℕ) : Prop :=
  (∃ p, IsEFW s e c p ∧ p.length = n) ∧ ∀ p, IsEFW s e c p → n ≤ p.length

lemma mem_nbrs {c np : Cell} : np ∈ nbrs c ↔ valid_step c np := by
  unfold nbrs
  rw [List.mem_filterMap]
  constructor
  · rintro ⟨m, hm, h⟩
    by_cases hv : is_valid (next_position c m)
    · simp only [hv, if_pos] at h
      obtain rfl : next_position c m = np := by simpa using h
      refine ⟨?_, by simpa [is_valid] using hv⟩
      have : (c.1 + m.1 - c.1, c.2 + m.2 - c.2) = m := by
        ext <;> simp
      simpa [next_position, this] using hm
    · simp [hv] at h
  · rintro ⟨hm, hv⟩
    refine ⟨(np.1 - c.1, np.2 - c.2), hm, ?_⟩
    have : next_position c (np.1 - c.1, np.2 - c.2) = np := by
      simp [next_position]
    rw [this, if_pos hv]

lemma mem_extensions {path q : List Cell} {c : Cell} :
    q ∈ extensions path c ↔ ∃ np, valid_step c np ∧ q = path ++ [np] := by
  unfold extensions
  rw [List.mem_filterMap]
  constructor
  · rintro ⟨m, hm, h⟩
    by_cases hv : is_valid (next_position c m)
    · simp only [hv, if_pos] at h
      refine ⟨next_position c m, ?_, by simpa using h.symm⟩
      exact mem_nbrs.mp (by
        unfold nbrs
        rw [List.mem_filterMap]
        exact ⟨m, hm, by simp [hv]⟩)
    · simp [hv] at h
  · rintro ⟨np, hst, rfl⟩
    have := mem_nbrs.mpr hst
    unfold nbrs at this
    rw [List.mem_filterMap] at this
    obtain ⟨m, hm, h⟩ := this
    exact ⟨m, hm, by by_cases hv : is_valid (next_position c m) <;> simp_all⟩

lemma length_of_mem_extensions {path q : List Cell} {c : Cell}
    (h : q ∈ extensions path c) : q.length = path.length + 1 := by
  obtain ⟨np, _, rfl⟩ := mem_extensions.mp h
  simp

lemma length_extensions_le (path : List Cell) (c : Cell) :
    (extensions path c).length ≤ 8 := by
  have := List.length_filterMap_le
    (fun move => let np := next_position c move;
      if is_valid np then some (path ++ [np]) else none) knight_moves
  simpa [extensions] using this

lemma IsWalk.ne_nil {s e : Cell} {p : List Cell} (h : IsWalk s e p) : p ≠ [] := by
  rintro rfl
  simp [IsWalk] at h

lemma IsWalk.length_pos {s e : Cell} {p : List Cell} (h : IsWalk s e p) :
    1 ≤ p.length :=
  List.length_pos_of_ne_nil h.ne_nil

lemma IsWalk.eq_singleton {s e : Cell} {p : List Cell} (h : IsWalk s e p)
    (hl : p.length = 1) : p = [s] ∧ s = e := by
  obtain ⟨ys, rfl⟩ := List.head?_eq_some_iff.mp h.1
  have hys : ys = [] := by
    simpa using hl
  subst hys
  refine ⟨rfl, ?_⟩
  have := h.2.1
  simpa using this

lemma isWalk_single (c : Cell) : IsWalk c c [c] := by
  refine ⟨rfl, rfl, List.chain'_singleton c⟩

lemma IsWalk.concat_step {s u c : Cell} {q : List Cell} (h : IsWalk s u q)
    (hst : valid_step u c) : IsWalk s c (q ++ [c]) := by
  refine ⟨?_, List.getLast?_concat q, ?_⟩
  · rw [List.head?_append_of_ne_nil _ h.ne_nil]; exact h.1
  · rw [List.chain'_append]
    refine ⟨h.2.2, List.chain'_singleton c, ?_⟩
    intro x hx y hy
    rw [h.2.1] at hx
    simp only [Option.mem_def, Option.some.injEq] at hx
    simp only [List.head?_cons, Option.mem_def, Option.some.injEq] at hy
    subst hx; subst hy
    exact hst

lemma IsWalk.decompose_last {s c : Cell} {p : List Cell} (h : IsWalk s c p)
    (hl : 2 ≤ p.length) : ∃ q u, p = q ++ [c] ∧ IsWalk s u q ∧ valid_step u c := by
  obtain ⟨q, rfl⟩ := List.getLast?_eq_some_iff.mp h.2.1
  have hq : q ≠ [] := by
    rintro rfl
    simp at hl
  obtain ⟨u, hu⟩ : ∃ u, q.getLast? = some u := by
    cases hqq : q.getLast? with
    | none => exact absurd (List.getLast?_eq_none_iff.mp hqq) hq
    | some u => exact ⟨u, rfl⟩
  have hch := List.chain'_append.mp h.2.2
  refine ⟨q, u, rfl, ⟨?_, hu, hch.1⟩, ?_⟩
  · have h1 := h.1
    rwa [List.head?_append_of_ne_nil _ hq] at h1
  · exact hch.2.2 u hu c rfl

lemma chain_valid_tail :
    ∀ p : List Cell, p.Chain' valid_step → ∀ c ∈ p.tail, is_valid c = true := by
  intro p
  induction p with
  | nil => intro _ c hc; simp at hc
  | cons a t ih =>
    intro hch c hc
    rw [List.chain'_cons'] at hch
    simp only [List.tail_cons] at hc
    cases t with
    | nil => simp at hc
    | cons b t' =>
      rcases List.mem_cons.mp hc with rfl | hc'
      · exact (hch.1 c rfl).2
      · exact ih hch.2 c hc'

lemma IsWalk.valid_of_mem {s e : Cell} {p : List Cell} (h : IsWalk s e p)
    (hs : is_valid s = true) : ∀ c ∈ p, is_valid c = true := by
  intro c hc
  obtain ⟨ys, rfl⟩ := List.head?_eq_some_iff.mp h.1
  rcases List.mem_cons.mp hc with rfl | hc'
  · exact hs
  · exact chain_valid_tail _ h.2.2 c (by simpa using hc')

lemma IsWalk.append {a b c : Cell} {p q : List Cell} (h1 : IsWalk a b p)
    (h2 : IsWalk b c q) : IsWalk a c (p ++ q.tail) := by
  obtain ⟨t, rfl⟩ := List.head?_eq_some_iff.mp h2.1
  cases t with
  | nil =>
    have hbc : b = c := by simpa using h2.2.1
    subst hbc
    simpa using h1
  | cons y t' =>
    simp only [List.tail_cons]
    refine ⟨?_, ?_, ?_⟩
    · rw [List.head?_append_of_ne_nil _ h1.ne_nil]; exact h1.1
    · rw [List.getLast?_append]
      have hyc : (y :: t').getLast? = some c := by
        have := h2.2.1
        rwa [List.getLast?_cons_cons] at this
      rw [hyc]
      rfl
    · rw [List.chain'_append]
      refine ⟨h1.2.2, (List.Chain'.tail h2.2.2 : _), ?_⟩
      intro x hx z hz
      rw [h1.2.1] at hx
      simp only [Option.mem_def, Option.some.injEq] at hx
      simp only [List.head?_cons, Option.mem_def, Option.some.injEq] at hz
      subst hx; subst hz
      exact (List.chain'_cons.mp h2.2.2).1

lemma knight_moves_neg_closed :
    ∀ m ∈ knight_moves, ((-m.1, -m.2) : Cell) ∈ knight_moves := by decide

lemma valid_step_symm {a b : Cell} (h : valid_step a b) (ha : is_valid a = true) :
    valid_step b a := by
  refine ⟨?_, ha⟩
  have := knight_moves_neg_closed _ h.1
  have heq : ((-(b.1 - a.1), -(b.2 - a.2)) : Cell) = (a.1 - b.1, a.2 - b.2) := by
    ext <;> simp
  rwa [heq] at this

lemma chain_valid_flip :
    ∀ p : List Cell, p.Chain' valid_step → (∀ c ∈ p, is_valid c = true) →
      p.Chain' (flip valid_step) := by
  intro p
  induction p with
  | nil => intro _ _; exact List.chain'_nil
  | cons a t ih =>
    intro hch hv
    rw [List.chain'_cons'] at hch ⊢
    refine ⟨?_, ih hch.2 fun c hc => hv c (List.mem_cons_of_mem a hc)⟩
    intro y hy
    have hstep := hch.1 y hy
    exact valid_step_symm hstep (hv a (List.mem_cons_self a t))

lemma IsWalk.reverse {s e : Cell} {p : List Cell} (h : IsWalk s e p)
    (hs : is_valid s = true) : IsWalk e s p.reverse := by
  refine ⟨?_, ?_, ?_⟩
  · rw [List.head?_reverse]; exact h.2.1
  · rw [List.getLast?_reverse]; exact h.1
  · rw [List.chain'_reverse]
    exact chain_valid_flip p h.2.2 (h.valid_of_mem hs)

lemma exists_isShortest {s e : Cell} (h : ∃ p, IsWalk s e p) :
    ∃ n, IsShortest s e n := by
  obtain ⟨p, hp⟩ := h
  set S : Set ℕ := {n | ∃ q, IsWalk s e q ∧ q.length = n} with hS
  have hne : S.Nonempty := ⟨p.length, p, hp, rfl⟩
  refine ⟨sInf S, ?_, ?_⟩
  · exact Nat.sInf_mem hne
  · intro q hq
    exact Nat.sInf_le ⟨q, hq, rfl⟩

lemma exists_minEFW {s e c : Cell} (h : ∃ p, IsEFW s e c p) :
    ∃ n, MinEFW s e c n := by
  obtain ⟨p, hp⟩ := h
  set S : Set ℕ := {n | ∃ q, IsEFW s e c q ∧ q.length = n} with hS
  have hne : S.Nonempty := ⟨p.length, p, hp, rfl⟩
  refine ⟨sInf S, ?_, ?_⟩
  · exact Nat.sInf_mem hne
  · intro q hq
    exact Nat.sInf_le ⟨q, hq, rfl⟩

lemma IsShortest.unique_len {s e : Cell} {n m : ℕ} (h1 : IsShortest s e n)
    (h2 : IsShortest s e m) : n = m := by
  obtain ⟨⟨p, hp, hpl⟩, hmin1⟩ := h1
  obtain ⟨⟨q, hq, hql⟩, hmin2⟩ := h2
  have := hmin1 q hq
  have := hmin2 p hp
  omega

lemma MinEFW.unique_min {s e c : Cell} {n m : ℕ} (h1 : MinEFW s e c n)
    (h2 : MinEFW s e c m) : n = m := by
  obtain ⟨⟨p, hp, hpl⟩, hmin1⟩ := h1
  obtain ⟨⟨q, hq, hql⟩, hmin2⟩ := h2
  have := hmin1 q hq
  have := hmin2 p hp
  omega

lemma cut_aux {e : Cell} :
    ∀ p : List Cell, p.Chain' valid_step → e ∈ p →
      ∃ q : List Cell, q.head? = p.head? ∧ q.getLast? = some e ∧
        q.Chain' valid_step ∧ e ∉ q.dropLast ∧ q.length ≤ p.length := by
  intro p
  induction p with
  | nil => intro _ he; simp at he
  | cons a t ih =>
    intro hch he
    by_cases hae : a = e
    · subst hae
      exact ⟨[a], rfl, rfl, List.chain'_singleton a, by simp, by simp⟩
    · have het : e ∈ t := by
        rcases List.mem_cons.mp he with h' | h'
        · exact absurd h'.symm hae
        · exact h'
      rw [List.chain'_cons'] at hch
      obtain ⟨q, hqh, hql, hqc, hqd, hqlen⟩ := ih hch.2 het
      have htne : t ≠ [] := by rintro rfl; simp at het
      have hqne : q ≠ [] := by
        rintro rfl
        simp at hql
      refine ⟨a :: q, rfl, ?_, ?_, ?_, by simpa using Nat.succ_le_succ hqlen⟩
      · rw [List.getLast?_cons]
        rw [List.getLast?_eq_some_iff] at hql
        obtain ⟨ys, rfl⟩ := hql
        simp
      · rw [List.chain'_cons']
        refine ⟨?_, hqc⟩
        intro y hy
        apply hch.1
        rw [hqh] at hy
        cases t with
        | nil => simp at het
        | cons b t' => simpa using hy
      · cases q with
        | nil => exact absurd rfl hqne
        | cons x q' =>
          intro hmem
          have hd : (a :: x :: q').dropLast = a :: (x :: q').dropLast := rfl
          rw [hd] at hmem
          rcases List.mem_cons.mp hmem with h' | h'
          · exact hae h'.symm
          · exact hqd h'

lemma exists_efw_of_walk {s e : Cell} {p : List Cell} (h : IsWalk s e p) :
    ∃ q, IsEFW s e e q ∧ q.length ≤ p.length := by
  have he : e ∈ p := by
    obtain ⟨ys, rfl⟩ := List.getLast?_eq_some_iff.mp h.2.1
    simp
  obtain ⟨q, hqh, hql, hqc, hqd, hqlen⟩ := cut_aux p h.2.2 he
  exact ⟨q, ⟨⟨hqh.trans h.1, hql, hqc⟩, hqd⟩, hqlen⟩

lemma isShortest_iff_minEFW {s e : Cell} {n : ℕ} :
    IsShortest s e n ↔ MinEFW s e e n := by
  constructor
  · rintro ⟨⟨p, hp, hpl⟩, hmin⟩
    obtain ⟨q, hq, hqlen⟩ := exists_efw_of_walk hp
    have hq_ge : n ≤ q.length := hmin q hq.1
    refine ⟨⟨q, hq, by omega⟩, ?_⟩
    intro r hr
    exact hmin r hr.1
  · rintro ⟨⟨p, hp, hpl⟩, hmin⟩
    refine ⟨⟨p, hp.1, hpl⟩, ?_⟩
    intro r hr
    obtain ⟨q, hq, hqlen⟩ := exists_efw_of_walk hr
    have := hmin q hq
    omega

lemma IsEFW.concat_efw {s e u c : Cell} {q : List Cell} (h : IsEFW s e u q)
    (hu : u ≠ e) (hst : valid_step u c) : IsEFW s e c (q ++ [c]) := by
  refine ⟨h.1.concat_step hst, ?_⟩
  rw [List.dropLast_concat]
  intro he
  obtain ⟨ys, hys⟩ := List.getLast?_eq_some_iff.mp h.1.2.1
  rw [hys] at he
  rcases List.mem_append.mp he with h' | h'
  · have : e ∈ q.dropLast := by
      rw [hys, List.dropLast_concat]
      exact h'
    exact h.2 this
  · have : e = u := by simpa using h'
    exact hu this.symm

lemma MinEFW.decompose_min {s e c : Cell} {n : ℕ} (h : MinEFW s e c n) (hn : 2 ≤ n) :
    ∃ u m, n = m + 1 ∧ u ≠ e ∧ valid_step u c ∧ MinEFW s e u m := by
  obtain ⟨⟨p, hp, hpl⟩, hmin⟩ := h
  obtain ⟨q, u, rfl, hq, hst⟩ := hp.1.decompose_last (by omega)
  have hql : q.length = n - 1 := by
    have := hpl
    simp at this
    omega
  have hqd : e ∉ q := by
    intro he
    exact hp.2 (by rwa [List.dropLast_concat])
  have hu_mem : u ∈ q := by
    obtain ⟨zs, rfl⟩ := List.getLast?_eq_some_iff.mp hq.2.1
    simp
  have hu : u ≠ e := fun h' => hqd (h' ▸ hu_mem)
  refine ⟨u, n - 1, by omega, hu, hst, ⟨⟨q, ⟨hq, ?_⟩, hql⟩, ?_⟩⟩
  · intro he
    exact hqd (List.mem_of_mem_dropLast he)
  · intro r hr
    have hext := hr.concat_efw hu hst
    have := hmin _ hext
    simp at this
    omega

/-- All 64 board cells. -/
def allCells : List Cell :=
  (List.range 64).map fun i => (((i / 8 : ℕ) : ℤ), ((i % 8 : ℕ) : ℤ))

lemma mem_allCells {c : Cell} : c ∈ allCells ↔ is_valid c = true := by
  constructor
  · have h : ∀ x ∈ allCells, is_valid x = true := by decide
    exact h c
  · intro hv
    simp only [is_valid, board_size, decide_eq_true_eq] at hv
    obtain ⟨h1, h2, h3, h4⟩ := hv
    simp only [allCells, List.mem_map, List.mem_range]
    refine ⟨c.1.toNat * 8 + c.2.toNat, by omega, ?_⟩
    ext
    · simp only []
      omega
    · simp only []
      omega

lemma visited_length_le {V : List Cell} (hnd : V.Nodup)
    (hv : ∀ c ∈ V, is_valid c = true) : V.length ≤ 64 := by
  have hsub : V.toFinset ⊆ allCells.toFinset := by
    intro x hx
    rw [List.mem_toFinset] at hx ⊢
    exact mem_allCells.mpr (hv x hx)
  have h1 : V.toFinset.card = V.length := List.toFinset_card_of_nodup hnd
  have h2 : allCells.toFinset.card ≤ allCells.length := List.toFinset_card_le allCells
  have h3 : allCells.length = 64 := by decide
  have := Finset.card_le_card hsub
  omega

lemma nbrs_nonempty {c : Cell} (hc : is_valid c = true) : ∃ np, valid_step c np := by
  have h : ∀ x ∈ allCells, nbrs x ≠ [] := by decide
  obtain ⟨np, hnp⟩ := List.exists_mem_of_ne_nil _ (h c (mem_allCells.mpr hc))
  exact ⟨np, mem_nbrs.mp hnp⟩

/-- Cells reachable from `s` in at most `n` knight moves. -/
def reachN (s : Cell) : ℕ → List Cell
  | 0 => [s]
  | n + 1 => ((reachN s n).flatMap fun c => c :: nbrs c).dedup

lemma reachN_mono {s : Cell} {n : ℕ} : reachN s n ⊆ reachN s (n + 1) := by
  intro x hx
  show x ∈ ((reachN s n).flatMap fun c => c :: nbrs c).dedup
  rw [List.mem_dedup, List.mem_flatMap]
  exact ⟨x, hx, List.mem_cons_self x _⟩

lemma reachN_mono_le {s : Cell} {j k : ℕ} (h : j ≤ k) : reachN s j ⊆ reachN s k := by
  induction k with
  | zero => have : j = 0 := by omega
            subst this; exact fun x hx => hx
  | succ k ih =>
    rcases Nat.lt_or_ge j (k + 1) with h' | h'
    · exact fun x hx => reachN_mono (ih (by omega) hx)
    · have : j = k + 1 := by omega
      subst this; exact fun x hx => hx

lemma walk_mem_reachN {s : Cell} :
    ∀ n : ℕ, ∀ c : Cell, ∀ p : List Cell, IsWalk s c p → p.length = n + 1 →
      c ∈ reachN s n := by
  intro n
  induction n with
  | zero =>
    intro c p hw hl
    obtain ⟨hp, hsc⟩ := hw.eq_singleton hl
    show c ∈ [s]
    simp [hsc]
  | succ n ih =>
    intro c p hw hl
    obtain ⟨q, u, rfl, hq, hst⟩ := hw.decompose_last (by omega)
    have hql : q.length = n + 1 := by
      simp at hl
      omega
    have hu := ih u q hq hql
    show c ∈ ((reachN s n).flatMap fun x => x :: nbrs x).dedup
    rw [List.mem_dedup, List.mem_flatMap]
    exact ⟨u, hu, List.mem_cons_of_mem u (mem_nbrs.mpr hst)⟩

lemma mem_reachN_walk {s : Cell} :
    ∀ n : ℕ, ∀ c : Cell, c ∈ reachN s n → ∃ p, IsWalk s c p ∧ p.length ≤ n + 1 := by
  intro n
  induction n with
  | zero =>
    intro c hc
    have : c = s := by simpa [reachN] using hc
    subst this
    exact ⟨[c], isWalk_single c, by simp⟩
  | succ n ih =>
    intro c hc
    have hc' : c ∈ (reachN s n).flatMap fun x => x :: nbrs x := by
      rw [show reachN s (n+1) = ((reachN s n).flatMap fun x => x :: nbrs x).dedup from rfl,
        List.mem_dedup] at hc
      exact hc
    rw [List.mem_flatMap] at hc'
    obtain ⟨u, hu, hcu⟩ := hc'
    obtain ⟨p, hp, hpl⟩ := ih u hu
    rcases List.mem_cons.mp hcu with rfl | hnb
    · exact ⟨p, hp, by omega⟩
    · refine ⟨p ++ [c], hp.concat_step (mem_nbrs.mp hnb), ?_⟩
      simp
      omega

lemma walk_length_lower {s c : Cell} {k : ℕ} (hnot : c ∉ reachN s k)
    {p : List Cell} (hw : IsWalk s c p) : k + 2 ≤ p.length := by
  by_contra h
  push_neg at h
  have h1 := hw.length_pos
  obtain ⟨j, hj⟩ : ∃ j, p.length = j + 1 := ⟨p.length - 1, by omega⟩
  have hj_le : j ≤ k := by omega
  exact hnot (reachN_mono_le hj_le (walk_mem_reachN j c p hw hj))

set_option maxRecDepth 80000 in
lemma all_cells_reach : ∀ c ∈ allCells, c ∈ reachN ((0 : ℤ), (0 : ℤ)) 6 := by decide

lemma connectivity {s e : Cell} (hs : is_valid s = true) (he : is_valid e = true) :
    ∃ p, IsWalk s e p := by
  have h0 : is_valid ((0 : ℤ), (0 : ℤ)) = true := by decide
  obtain ⟨p1, hp1, _⟩ :=
    mem_reachN_walk 6 s (all_cells_reach s (mem_allCells.mpr hs))
  obtain ⟨p2, hp2, _⟩ :=
    mem_reachN_walk 6 e (all_cells_reach e (mem_allCells.mpr he))
  exact ⟨p1.reverse ++ p2.tail, (hp1.reverse h0).append hp2⟩

/-!
The loop invariant of `bfs_loop`, over the state `(Q, V, ml)`: queue of
partial paths, visited cells, recorded minimum length.  The output
accumulator needs no invariant: the main theorem `bfs_loop_spec` tracks it
directly.
-/

structure BfsInv (s e : Cell) (Q : List (List Cell)) (V : List Cell)
    (ml : Option ℕ) : Prop where
  wf : ∀ q ∈ Q, ∃ c, IsEFW s e c q
  sorted : (Q.map List.length).Pairwise (· ≤ ·)
  span : ∀ a ∈ Q, ∀ b ∈ Q, a.length ≤ b.length + 1
  vnodup : V.Nodup
  vvalid : ∀ c ∈ V, is_valid c = true
  vne : ∀ c ∈ V, c ≠ e
  pend : ∀ c, c ∉ V → c ≠ e → ∀ n, MinEFW s e c n → ∀ q0 ∈ Q.head?,
    n ≤ q0.length → ∃ q ∈ Q, IsEFW s e c q ∧ q.length = n
  pendE : ml = none → ∀ n, MinEFW s e e n → ∀ q0 ∈ Q.head?,
    n ≤ q0.length → ∃ q ∈ Q, IsEFW s e e q ∧ q.length = n
  cover : ∀ u ∈ V, ∀ n, MinEFW s e u n → ∀ c, valid_step u c →
    c ∈ V ∨ (∃ q ∈ Q, IsEFW s e c q ∧ q.length ≤ n + 1) ∨ (c = e ∧ ml ≠ none)
  alive : ml = none → (∃ p, IsWalk s e p) → Q ≠ []

lemma head_len_min {q0 : List Cell} {Q : List (List Cell)}
    (h : ((q0 :: Q).map List.length).Pairwise (· ≤ ·)) :
    ∀ q ∈ q0 :: Q, q0.length ≤ q.length := by
  intro q hq
  rcases List.mem_cons.mp hq with rfl | hq'
  · exact le_refl _
  · rw [List.map_cons, List.pairwise_cons] at h
    exact h.1 q.length (List.mem_map_of_mem List.length hq')

lemma efw_of_entry {s e c : Cell} {q : List Cell} (hwf : ∃ c', IsEFW s e c' q)
    (hlast : q.getLast? = some c) : IsEFW s e c q := by
  obtain ⟨c', hc'⟩ := hwf
  have : c' = c := by
    have h1 := hc'.1.2.1
    rw [hlast] at h1
    exact (Option.some.injEq _ _ ▸ h1).symm ▸ rfl
  exact this ▸ hc'

lemma front_minEFW {s e c0 : Cell} {q0 : List Cell} {Q : List (List Cell)}
    {V : List Cell} {ml : Option ℕ} (inv : BfsInv s e (q0 :: Q) V ml)
    (hlast : q0.getLast? = some c0) (hc0V : c0 ∉ V) (hc0e : c0 ≠ e) :
    MinEFW s e c0 q0.length := by
  have hefw : IsEFW s e c0 q0 := efw_of_entry (inv.wf q0 (List.mem_cons_self _ _)) hlast
  obtain ⟨n, hmin⟩ := exists_minEFW ⟨q0, hefw⟩
  have hn_le : n ≤ q0.length := hmin.2 q0 hefw
  obtain ⟨q, hqQ, hqefw, hqlen⟩ :=
    inv.pend c0 hc0V hc0e n hmin q0 rfl hn_le
  have := head_len_min inv.sorted q hqQ
  have hn_eq : n = q0.length := by omega
  exact hn_eq ▸ hmin

lemma front_minEFW_e {s e : Cell} {q0 : List Cell} {Q : List (List Cell)}
    {V : List Cell} (inv : BfsInv s e (q0 :: Q) V none)
    (hlast : q0.getLast? = some e) : MinEFW s e e q0.length := by
  have hefw : IsEFW s e e q0 := efw_of_entry (inv.wf q0 (List.mem_cons_self _ _)) hlast
  obtain ⟨n, hmin⟩ := exists_minEFW ⟨q0, hefw⟩
  have hn_le : n ≤ q0.length := hmin.2 q0 hefw
  obtain ⟨q, hqQ, hqefw, hqlen⟩ :=
    inv.pendE rfl n hmin q0 rfl hn_le
  have := head_len_min inv.sorted q hqQ
  have hn_eq : n = q0.length := by omega
  exact hn_eq ▸ hmin

lemma entry_length_pos {s e c : Cell} {q : List Cell} (h : IsEFW s e c q) :
    1 ≤ q.length :=
  h.1.length_pos

lemma advance_entry {s e c0 : Cell} {q0 : List Cell} {Q : List (List Cell)}
    {V : List Cell} {ml : Option ℕ} (inv : BfsInv s e (q0 :: Q) V ml)
    (hlast : q0.getLast? = some c0) {c : Cell} {n : ℕ}
    (hcV : c ∉ V) (hml : c = e → ml = none)
    (hmin : MinEFW s e c n) (hn : n = q0.length + 1) :
    (∃ q ∈ q0 :: Q, IsEFW s e c q ∧ q.length = n) ∨
    (∃ u, u ∉ V ∧ u ≠ e ∧ valid_step u c ∧ MinEFW s e u q0.length) := by
  have hq0_pos : 1 ≤ q0.length :=
    entry_length_pos (efw_of_entry (inv.wf q0 (List.mem_cons_self _ _)) hlast)
  obtain ⟨u, m, hnm, hu_ne, hstep, hminu⟩ := hmin.decompose_min (by omega)
  have hm : m = q0.length := by omega
  by_cases huV : u ∈ V
  · rcases inv.cover u huV m hminu c hstep with h | ⟨q, hq, hefw, hlen⟩ | ⟨rfl, hmlne⟩
    · exact absurd h hcV
    · have := hmin.2 q hefw
      exact Or.inl ⟨q, hq, hefw, by omega⟩
    · exact absurd (hml rfl) hmlne
  · exact Or.inr ⟨u, huV, hu_ne, hstep, hm ▸ hminu⟩

lemma efw_last {s e c : Cell} {q : List Cell} (h : IsEFW s e c q) :
    q.getLast? = some c :=
  h.1.2.1

lemma entry_mem_rest {s e c0 x : Cell} {q0 qq : List Cell}
    {rest : List (List Cell)} (hqq : qq ∈ q0 :: rest) (hefw : IsEFW s e x qq)
    (hlast : q0.getLast? = some c0) (hne : x ≠ c0) : qq ∈ rest := by
  rcases List.mem_cons.mp hqq with rfl | h
  · have hthis := efw_last hefw
    rw [hlast] at hthis
    have hx : c0 = x := by simpa using hthis
    exact absurd hx.symm hne
  · exact h

lemma pend_pop {s e c0 : Cell} {q0 : List Cell} {rest : List (List Cell)}
    {V : List Cell} {ml : Option ℕ} (inv : BfsInv s e (q0 :: rest) V ml)
    (hlast : q0.getLast? = some c0) (hc0or : c0 ∈ V ∨ c0 = e)
    {c : Cell} (hcV : c ∉ V) (hml : c = e → ml = none) (hcc0 : c ≠ c0)
    (hpends : ∀ n, MinEFW s e c n → n ≤ q0.length →
      ∃ q ∈ q0 :: rest, IsEFW s e c q ∧ q.length = n) :
    ∀ n, MinEFW s e c n → ∀ q1 ∈ rest.head?, n ≤ q1.length →
      ∃ q ∈ rest, IsEFW s e c q ∧ q.length = n := by
  intro n hmin q1 hq1 hnle
  have hq1some : rest.head? = some q1 := hq1
  obtain ⟨t, rfl⟩ := List.head?_eq_some_iff.mp hq1some
  have hq0le : q0.length ≤ q1.length :=
    head_len_min inv.sorted q1 (List.mem_cons_of_mem _ (List.mem_cons_self _ _))
  have hrest_sorted : ((q1 :: t).map List.length).Pairwise (· ≤ ·) := by
    have := inv.sorted
    rw [List.map_cons] at this
    exact this.of_cons
  by_cases hcase : n ≤ q0.length
  · obtain ⟨q, hq, hefw, hlen⟩ := hpends n hmin hcase
    exact ⟨q, entry_mem_rest hq hefw hlast hcc0, hefw, hlen⟩
  · have hspan : q1.length ≤ q0.length + 1 :=
      inv.span q1 (List.mem_cons_of_mem _ (List.mem_cons_self _ _))
        q0 (List.mem_cons_self _ _)
    have hn : n = q0.length + 1 := by omega
    rcases advance_entry inv hlast hcV hml hmin hn with
      ⟨q, hq, hefw, hlen⟩ | ⟨u, huV, hue, hstep, huMin⟩
    · refine ⟨q, ?_, hefw, hlen⟩
      rcases List.mem_cons.mp hq with rfl | h
      · omega
      · exact h
    · obtain ⟨q, hq, hefw, hlen⟩ :=
        inv.pend u huV hue q0.length huMin q0 rfl (le_refl _)
      have huc0 : u ≠ c0 := by
        rcases hc0or with h | rfl
        · exact fun h' => huV (h' ▸ h)
        · exact hue
      have hq_rest : q ∈ q1 :: t := entry_mem_rest hq hefw hlast huc0
      have := head_len_min hrest_sorted q hq_rest
      omega

lemma first_not_mem {α : Type} (P : α → Prop) :
    ∀ l : List α, (∃ x ∈ l, ¬ P x) →
      ∃ t1 x t2, l = t1 ++ x :: t2 ∧ (∀ y ∈ t1, P y) ∧ ¬ P x := by
  intro l
  induction l with
  | nil => rintro ⟨x, hx, _⟩; simp at hx
  | cons a t ih =>
    intro hex
    by_cases hPa : P a
    · have hext : ∃ x ∈ t, ¬ P x := by
        obtain ⟨x, hx, hnx⟩ := hex
        rcases List.mem_cons.mp hx with rfl | h'
        · exact absurd hPa hnx
        · exact ⟨x, h', hnx⟩
      obtain ⟨t1, x, t2, rfl, h1, h2⟩ := ih hext
      refine ⟨a :: t1, x, t2, rfl, ?_, h2⟩
      intro y hy
      rcases List.mem_cons.mp hy with rfl | h
      · exact hPa
      · exact h1 y h
    · exact ⟨[], a, t, rfl, by simp, hPa⟩

lemma alive_pop {s e c0 : Cell} {q0 : List Cell} {rest : List (List Cell)}
    {V : List Cell} (inv : BfsInv s e (q0 :: rest) V none)
    (hlast : q0.getLast? = some c0) (hc0V : c0 ∈ V)
    (hreach : ∃ p, IsWalk s e p) : rest ≠ [] := by
  have hq0_pos : 1 ≤ q0.length :=
    entry_length_pos (efw_of_entry (inv.wf q0 (List.mem_cons_self _ _)) hlast)
  obtain ⟨p0, hp0⟩ := hreach
  obtain ⟨qe, hqe, _⟩ := exists_efw_of_walk hp0
  obtain ⟨nE, hminE⟩ := exists_minEFW ⟨qe, hqe⟩
  obtain ⟨pstar, hpstar, hplen⟩ := hminE.1
  have he_not : ∃ x ∈ pstar, ¬ x ∈ V := by
    refine ⟨e, ?_, fun h => inv.vne e h rfl⟩
    obtain ⟨ys, hys⟩ := List.getLast?_eq_some_iff.mp hpstar.1.2.1
    rw [hys]
    simp
  obtain ⟨t1, x, t2, hdecomp, ht1, hxV⟩ := first_not_mem (· ∈ V) pstar he_not
  have hxc0 : x ≠ c0 := fun h => hxV (h ▸ hc0V)
  rcases List.eq_nil_or_concat t1 with rfl | ⟨t1', u, hconcat⟩
  · -- x is the head of pstar, hence x = s
    simp only [List.nil_append] at hdecomp
    have hxs : x = s := by
      have := hpstar.1.1
      rw [hdecomp] at this
      simpa using this
    have hxefw : IsEFW s e x [x] := by
      refine ⟨⟨by simp [hxs], rfl, List.chain'_singleton x⟩, by simp⟩
    obtain ⟨m, hm⟩ := exists_minEFW ⟨[x], hxefw⟩
    have hm_le : m ≤ 1 := by
      have := hm.2 [x] hxefw
      simpa using this
    by_cases hxe : x = e
    · obtain ⟨qq, hqq, hefw, _⟩ :=
        inv.pendE rfl m (hxe ▸ hm) q0 rfl (by omega)
      have : qq ∈ rest := entry_mem_rest hqq hefw hlast (hxe ▸ hxc0)
      intro hnil
      rw [hnil] at this
      simp at this
    · obtain ⟨qq, hqq, hefw, _⟩ :=
        inv.pend x hxV hxe m hm q0 rfl (by omega)
      have : qq ∈ rest := entry_mem_rest hqq hefw hlast hxc0
      intro hnil
      rw [hnil] at this
      simp at this
  · -- t1 = t1' ++ [u] with u visited; use the coverage of u
    rw [List.concat_eq_append] at hconcat
    subst hconcat
    have ht1cons : t1' ++ [u] ≠ ([] : List Cell) := by simp
    have huV : u ∈ V := ht1 u (by simp)
    have hchain := hpstar.1.2.2
    rw [hdecomp, List.chain'_append] at hchain
    have hstep : valid_step u x :=
      hchain.2.2 u (List.getLast?_concat _) x rfl
    have ht1efw : IsEFW s e u (t1' ++ [u]) := by
      refine ⟨⟨?_, List.getLast?_concat _, hchain.1⟩, ?_⟩
      · have := hpstar.1.1
        rw [hdecomp, List.head?_append_of_ne_nil _ ht1cons] at this
        exact this
      · intro he
        have hmem : e ∈ t1' ++ [u] := List.mem_of_mem_dropLast he
        have : e ∈ pstar.dropLast := by
          rw [hdecomp, List.dropLast_append_of_ne_nil _ (by simp : x :: t2 ≠ [])]
          exact List.mem_append_left _ hmem
        exact hpstar.2 this
    obtain ⟨k, hk⟩ := exists_minEFW ⟨t1' ++ [u], ht1efw⟩
    rcases inv.cover u huV k hk x hstep with h | ⟨qq, hqq, hefw, _⟩ | ⟨_, hne⟩
    · exact absurd h hxV
    · have : qq ∈ rest := entry_mem_rest hqq hefw hlast hxc0
      intro hnil
      rw [hnil] at this
      simp at this
    · exact absurd rfl hne

lemma inv_pop_visited {s e c0 : Cell} {q0 : List Cell} {rest : List (List Cell)}
    {V : List Cell} {ml : Option ℕ} (inv : BfsInv s e (q0 :: rest) V ml)
    (hlast : q0.getLast? = some c0) (hc0e : c0 ≠ e) (hc0V : c0 ∈ V) :
    BfsInv s e rest V ml := by
  refine ⟨fun q hq => inv.wf q (List.mem_cons_of_mem _ hq), ?_,
    fun a ha b hb => inv.span a (List.mem_cons_of_mem _ ha) b (List.mem_cons_of_mem _ hb),
    inv.vnodup, inv.vvalid, inv.vne, ?_, ?_, ?_, ?_⟩
  · have h := inv.sorted
    rw [List.map_cons] at h
    exact h.of_cons
  · intro c hcV hce n hmin q1 hq1 hle
    exact pend_pop inv hlast (Or.inl hc0V) hcV (fun h => absurd h hce)
      (fun h => hcV (h ▸ hc0V))
      (fun n' hmin' hle' => inv.pend c hcV hce n' hmin' q0 rfl hle')
      n hmin q1 hq1 hle
  · intro hml n hmin q1 hq1 hle
    have heV : e ∉ V := fun h => inv.vne e h rfl
    have hec0 : e ≠ c0 := fun h => hc0e h.symm
    exact pend_pop inv hlast (Or.inl hc0V) heV (fun _ => hml) hec0
      (fun n' hmin' hle' => inv.pendE hml n' hmin' q0 rfl hle')
      n hmin q1 hq1 hle
  · intro u huV n hmin c hstep
    rcases inv.cover u huV n hmin c hstep with h | ⟨q, hq, hefw, hlen⟩ | h3
    · exact Or.inl h
    · rcases List.mem_cons.mp hq with rfl | hq'
      · have h1 := efw_last hefw
        rw [hlast] at h1
        have h2 : c0 = c := by simpa using h1
        exact Or.inl (h2 ▸ hc0V)
      · exact Or.inr (Or.inl ⟨q, hq', hefw, hlen⟩)
    · exact Or.inr (Or.inr h3)
  · intro hml hreach
    exact alive_pop (hml ▸ inv) hlast hc0V hreach

lemma inv_pop_found_none {s e : Cell} {q0 : List Cell} {rest : List (List Cell)}
    {V : List Cell} (inv : BfsInv s e (q0 :: rest) V none)
    (hlast : q0.getLast? = some e) : BfsInv s e rest V (some q0.length) := by
  refine ⟨fun q hq => inv.wf q (List.mem_cons_of_mem _ hq), ?_,
    fun a ha b hb => inv.span a (List.mem_cons_of_mem _ ha) b (List.mem_cons_of_mem _ hb),
    inv.vnodup, inv.vvalid, inv.vne, ?_, ?_, ?_, ?_⟩
  · have h := inv.sorted
    rw [List.map_cons] at h
    exact h.of_cons
  · intro c hcV hce n hmin q1 hq1 hle
    exact pend_pop inv hlast (Or.inr rfl) hcV (fun h => absurd h hce) hce
      (fun n' hmin' hle' => inv.pend c hcV hce n' hmin' q0 rfl hle')
      n hmin q1 hq1 hle
  · intro h
    exact absurd h (by simp)
  · intro u huV n hmin c hstep
    rcases inv.cover u huV n hmin c hstep with h | ⟨q, hq, hefw, hlen⟩ | ⟨_, h3⟩
    · exact Or.inl h
    · rcases List.mem_cons.mp hq with rfl | hq'
      · have h1 := efw_last hefw
        rw [hlast] at h1
        have h2 : e = c := by simpa using h1
        exact Or.inr (Or.inr ⟨h2.symm, by simp⟩)
      · exact Or.inr (Or.inl ⟨q, hq', hefw, hlen⟩)
    · exact absurd rfl h3
  · intro h
    exact absurd h (by simp)

lemma inv_pop_found_some {s e : Cell} {m : ℕ} {q0 : List Cell}
    {rest : List (List Cell)} {V : List Cell}
    (inv : BfsInv s e (q0 :: rest) V (some m))
    (hlast : q0.getLast? = some e) : BfsInv s e rest V (some m) := by
  refine ⟨fun q hq => inv.wf q (List.mem_cons_of_mem _ hq), ?_,
    fun a ha b hb => inv.span a (List.mem_cons_of_mem _ ha) b (List.mem_cons_of_mem _ hb),
    inv.vnodup, inv.vvalid, inv.vne, ?_, ?_, ?_, ?_⟩
  · have h := inv.sorted
    rw [List.map_cons] at h
    exact h.of_cons
  · intro c hcV hce n hmin q1 hq1 hle
    exact pend_pop inv hlast (Or.inr rfl) hcV (fun h => absurd h hce) hce
      (fun n' hmin' hle' => inv.pend c hcV hce n' hmin' q0 rfl hle')
      n hmin q1 hq1 hle
  · intro h
    exact absurd h (by simp)
  · intro u huV n hmin c hstep
    rcases inv.cover u huV n hmin c hstep with h | ⟨q, hq, hefw, hlen⟩ | ⟨h2, _⟩
    · exact Or.inl h
    · rcases List.mem_cons.mp hq with rfl | hq'
      · have h1 := efw_last hefw
        rw [hlast] at h1
        have h2 : e = c := by simpa using h1
        exact Or.inr (Or.inr ⟨h2.symm, by simp⟩)
      · exact Or.inr (Or.inl ⟨q, hq', hefw, hlen⟩)
    · exact Or.inr (Or.inr ⟨h2, by simp⟩)
  · intro h
    exact absurd h (by simp)

lemma pairwise_le_of_const {l : List ℕ} {k : ℕ} (h : ∀ x ∈ l, x = k) :
    l.Pairwise (· ≤ ·) := by
  induction l with
  | nil => exact List.Pairwise.nil
  | cons a t ih =>
    rw [List.pairwise_cons]
    refine ⟨?_, ih fun x hx => h x (List.mem_cons_of_mem _ hx)⟩
    intro b hb
    rw [h a (List.mem_cons_self _ _), h b (List.mem_cons_of_mem _ hb)]

lemma pend_expand {s e c0 : Cell} {q0 : List Cell} {rest : List (List Cell)}
    {V : List Cell} {ml : Option ℕ} (inv : BfsInv s e (q0 :: rest) V ml)
    (hlast : q0.getLast? = some c0) (hc0e : c0 ≠ e)
    {c : Cell} (hcV : c ∉ V) (hcc0 : c ≠ c0) (hml : c = e → ml = none)
    (hpends : ∀ n, MinEFW s e c n → n ≤ q0.length →
      ∃ q ∈ q0 :: rest, IsEFW s e c q ∧ q.length = n) :
    ∀ n, MinEFW s e c n → ∀ q1 ∈ (rest ++ extensions q0 c0).head?, n ≤ q1.length →
      ∃ q ∈ rest ++ extensions q0 c0, IsEFW s e c q ∧ q.length = n := by
  have hq0efw : IsEFW s e c0 q0 :=
    efw_of_entry (inv.wf q0 (List.mem_cons_self _ _)) hlast
  intro n hmin q1 hq1 hle
  have hq1some : (rest ++ extensions q0 c0).head? = some q1 := hq1
  have hq1mem : q1 ∈ rest ++ extensions q0 c0 := by
    obtain ⟨t, ht⟩ := List.head?_eq_some_iff.mp hq1some
    rw [ht]
    exact List.mem_cons_self _ _
  have hq1_le : q1.length ≤ q0.length + 1 := by
    rcases List.mem_append.mp hq1mem with h | h
    · exact inv.span q1 (List.mem_cons_of_mem _ h) q0 (List.mem_cons_self _ _)
    · exact le_of_eq (length_of_mem_extensions h)
  by_cases hcase : n ≤ q0.length
  · obtain ⟨q, hq, hefw, hlen⟩ := hpends n hmin hcase
    exact ⟨q, List.mem_append_left _ (entry_mem_rest hq hefw hlast hcc0), hefw, hlen⟩
  · have hn : n = q0.length + 1 := by omega
    rcases advance_entry inv hlast hcV hml hmin hn with
      ⟨q, hq, hefw, hlen⟩ | ⟨u, huV, hue, hstep, huMin⟩
    · rcases List.mem_cons.mp hq with rfl | hq'
      · omega
      · exact ⟨q, List.mem_append_left _ hq', hefw, hlen⟩
    · by_cases huc0 : u = c0
      · subst huc0
        refine ⟨q0 ++ [c], List.mem_append_right _
          (mem_extensions.mpr ⟨c, hstep, rfl⟩), hq0efw.concat_efw hc0e hstep, by simp; omega⟩
      · obtain ⟨q, hq, hefwu, hlenu⟩ :=
          inv.pend u huV hue q0.length huMin q0 rfl (le_refl _)
        have hq_rest : q ∈ rest := entry_mem_rest hq hefwu hlast huc0
        have hrestne : rest ≠ [] := List.ne_nil_of_mem hq_rest
        have hq1r : rest.head? = some q1 := by
          rw [List.head?_append_of_ne_nil _ hrestne] at hq1some
          exact hq1some
        obtain ⟨t, ht⟩ := List.head?_eq_some_iff.mp hq1r
        have hrest_sorted : (rest.map List.length).Pairwise (· ≤ ·) := by
          have h := inv.sorted
          rw [List.map_cons] at h
          exact h.of_cons
        have := head_len_min (ht ▸ hrest_sorted) q (ht ▸ hq_rest)
        omega

lemma inv_expand {s e c0 : Cell} {q0 : List Cell} {rest : List (List Cell)}
    {V : List Cell} {ml : Option ℕ} (hs : is_valid s = true)
    (inv : BfsInv s e (q0 :: rest) V ml) (hlast : q0.getLast? = some c0)
    (hc0e : c0 ≠ e) (hc0V : c0 ∉ V) :
    BfsInv s e (rest ++ extensions q0 c0) (c0 :: V) ml := by
  have hq0efw : IsEFW s e c0 q0 :=
    efw_of_entry (inv.wf q0 (List.mem_cons_self _ _)) hlast
  have hq0min : MinEFW s e c0 q0.length := front_minEFW inv hlast hc0V hc0e
  have hrest_le : ∀ a ∈ rest, a.length ≤ q0.length + 1 := fun a ha =>
    inv.span a (List.mem_cons_of_mem _ ha) q0 (List.mem_cons_self _ _)
  have hrest_ge : ∀ a ∈ rest, q0.length ≤ a.length := fun a ha =>
    head_len_min inv.sorted a (List.mem_cons_of_mem _ ha)
  have hc0_mem : c0 ∈ q0 := by
    obtain ⟨ys, hys⟩ := List.getLast?_eq_some_iff.mp hlast
    rw [hys]
    simp
  have hc0_valid : is_valid c0 = true := hq0efw.1.valid_of_mem hs c0 hc0_mem
  refine ⟨?_, ?_, ?_, List.nodup_cons.mpr ⟨hc0V, inv.vnodup⟩, ?_, ?_, ?_, ?_, ?_, ?_⟩
  · intro q hq
    rcases List.mem_append.mp hq with h | h
    · exact inv.wf q (List.mem_cons_of_mem _ h)
    · obtain ⟨np, hstep, rfl⟩ := mem_extensions.mp h
      exact ⟨np, hq0efw.concat_efw hc0e hstep⟩
  · rw [List.map_append, List.pairwise_append]
    refine ⟨?_, ?_, ?_⟩
    · have h := inv.sorted
      rw [List.map_cons] at h
      exact h.of_cons
    · have hconst : ∀ x ∈ (extensions q0 c0).map List.length, x = q0.length + 1 := by
        intro x hx
        obtain ⟨q, hq, rfl⟩ := List.mem_map.mp hx
        exact length_of_mem_extensions hq
      exact pairwise_le_of_const hconst
    · intro x hx y hy
      obtain ⟨a, ha, rfl⟩ := List.mem_map.mp hx
      obtain ⟨b, hb, rfl⟩ := List.mem_map.mp hy
      rw [length_of_mem_extensions hb]
      exact hrest_le a ha
  · intro a ha b hb
    rcases List.mem_append.mp ha with ha' | ha' <;>
      rcases List.mem_append.mp hb with hb' | hb'
    · exact inv.span a (List.mem_cons_of_mem _ ha') b (List.mem_cons_of_mem _ hb')
    · have h1 := hrest_le a ha'
      have h2 := length_of_mem_extensions hb'
      omega
    · have h1 := length_of_mem_extensions ha'
      have h2 := hrest_ge b hb'
      omega
    · have h1 := length_of_mem_extensions ha'
      have h2 := length_of_mem_extensions hb'
      omega
  · intro c hc
    rcases List.mem_cons.mp hc with rfl | h
    · exact hc0_valid
    · exact inv.vvalid c h
  · intro c hc
    rcases List.mem_cons.mp hc with rfl | h
    · exact hc0e
    · exact inv.vne c h
  · intro c hcV' hce n hmin q1 hq1 hle
    have hcV : c ∉ V := fun h => hcV' (List.mem_cons_of_mem _ h)
    have hcc0 : c ≠ c0 := fun h => hcV' (h ▸ List.mem_cons_self _ _)
    exact pend_expand inv hlast hc0e hcV hcc0 (fun h => absurd h hce)
      (fun n' hmin' hle' => inv.pend c hcV hce n' hmin' q0 rfl hle')
      n hmin q1 hq1 hle
  · intro hml n hmin q1 hq1 hle
    have heV : e ∉ V := fun h => inv.vne e h rfl
    have hec0 : e ≠ c0 := fun h => hc0e h.symm
    exact pend_expand inv hlast hc0e heV hec0 (fun _ => hml)
      (fun n' hmin' hle' => inv.pendE hml n' hmin' q0 rfl hle')
      n hmin q1 hq1 hle
  · intro u huV' n hmin c hstep
    rcases List.mem_cons.mp huV' with rfl | huV
    · have hn : n = q0.length := hmin.unique_min hq0min
      refine Or.inr (Or.inl ⟨q0 ++ [c], List.mem_append_right _
        (mem_extensions.mpr ⟨c, hstep, rfl⟩), hq0efw.concat_efw hc0e hstep, by simp; omega⟩)
    · rcases inv.cover u huV n hmin c hstep with h | ⟨q, hq, hefw, hlen⟩ | h3
      · exact Or.inl (List.mem_cons_of_mem _ h)
      · rcases List.mem_cons.mp hq with rfl | hq'
        · have h1 := efw_last hefw
          rw [hlast] at h1
          have h2 : c0 = c := by simpa using h1
          exact Or.inl (h2 ▸ List.mem_cons_self _ _)
        · exact Or.inr (Or.inl ⟨q, List.mem_append_left _ hq', hefw, hlen⟩)
      · exact Or.inr (Or.inr h3)
  · intro hml hreach
    obtain ⟨np, hstep⟩ := nbrs_nonempty hc0_valid
    have hmem : q0 ++ [np] ∈ extensions q0 c0 := mem_extensions.mpr ⟨np, hstep, rfl⟩
    intro hnil
    rcases List.append_eq_nil.mp hnil with ⟨_, hext⟩
    rw [hext] at hmem
    simp at hmem

lemma bfs_loop_nil (endc : Cell) (fuel : ℕ) (V : List Cell)
    (out : List (List Cell)) (ml : Option ℕ) :
    bfs_loop endc fuel [] V out ml = out := by
  cases fuel <;> rfl

lemma bfs_loop_cons (endc : Cell) (fuel : ℕ) (q0 : List Cell)
    (rest : List (List Cell)) (V : List Cell) (out : List (List Cell))
    (ml : Option ℕ) :
    bfs_loop endc (fuel + 1) (q0 :: rest) V out ml =
      if q0.getLast?.getD (0, 0) = endc then
        ml.elim (bfs_loop endc fuel rest V (out ++ [q0]) (some q0.length))
          fun m =>
            if q0.length = m then
              bfs_loop endc fuel rest V (out ++ [q0]) (some m)
            else
              bfs_loop endc fuel rest V out (some m)
      else if q0.getLast?.getD (0, 0) ∈ V then
        bfs_loop endc fuel rest V out ml
      else
        bfs_loop endc fuel (rest ++ extensions q0 (q0.getLast?.getD (0, 0)))
          (q0.getLast?.getD (0, 0) :: V) out ml := by
  cases ml <;> rfl

theorem bfs_loop_spec {s e : Cell} (hs : is_valid s = true) :
    ∀ fuel : ℕ, ∀ Q : List (List Cell), ∀ V : List Cell,
      ∀ out : List (List Cell), ∀ ml : Option ℕ,
      BfsInv s e Q V ml → 9 * (65 - V.length) + Q.length ≤ fuel →
      ∃ D, bfs_loop e fuel Q V out ml = out ++ D ∧
        (∀ p ∈ D, IsWalk s e p) ∧
        (∀ m, ml = some m → ∀ p ∈ D, p.length = m) ∧
        (ml = none → ∀ n, IsShortest s e n → D ≠ [] ∧ ∀ p ∈ D, p.length = n) := by
  intro fuel
  induction fuel with
  | zero =>
    intro Q V out ml inv hfuel
    exfalso
    have hV : V.length ≤ 64 := visited_length_le inv.vnodup inv.vvalid
    omega
  | succ fuel ih =>
    intro Q V out ml inv hfuel
    cases Q with
    | nil =>
      refine ⟨[], by rw [bfs_loop_nil]; simp, by simp, by simp, ?_⟩
      intro hml n hn
      exact absurd rfl (inv.alive hml ⟨hn.1.choose, hn.1.choose_spec.1⟩)
    | cons q0 rest =>
      obtain ⟨c, hefw⟩ := inv.wf q0 (List.mem_cons_self _ _)
      have hlast : q0.getLast? = some c := hefw.1.2.1
      have hcur : q0.getLast?.getD (0, 0) = c := by rw [hlast]; rfl
      have hV64 : V.length ≤ 64 := visited_length_le inv.vnodup inv.vvalid
      rw [bfs_loop_cons, hcur]
      by_cases hc : c = e
      · subst hc
        rw [if_pos rfl]
        cases ml with
        | none =>
          have minE : MinEFW s c c q0.length := front_minEFW_e inv hlast
          have inv' := inv_pop_found_none inv hlast
          obtain ⟨D', hD', hwalks', hsome', _⟩ :=
            ih rest V (out ++ [q0]) (some q0.length) inv' (by
              simp only [List.length_cons] at hfuel
              omega)
          refine ⟨q0 :: D', ?_, ?_, ?_, ?_⟩
          · show bfs_loop c fuel rest V (out ++ [q0]) (some q0.length) = _
            rw [hD']
            simp
          · intro p hp
            rcases List.mem_cons.mp hp with rfl | hp'
            · exact hefw.1
            · exact hwalks' p hp'
          · intro m hm
            exact absurd hm (by simp)
          · intro _ n hn
            have hn' : n = q0.length :=
              (isShortest_iff_minEFW.mp hn).unique_min minE
            refine ⟨by simp, ?_⟩
            intro p hp
            rcases List.mem_cons.mp hp with rfl | hp'
            · omega
            · rw [hsome' q0.length rfl p hp']
              omega
        | some m =>
          have inv' := inv_pop_found_some inv hlast
          simp only [Option.elim_some]
          by_cases hlen : q0.length = m
          · rw [if_pos hlen]
            obtain ⟨D', hD', hwalks', hsome', _⟩ :=
              ih rest V (out ++ [q0]) (some m) inv' (by
                simp only [List.length_cons] at hfuel
                omega)
            refine ⟨q0 :: D', ?_, ?_, ?_, ?_⟩
            · rw [hD']
              simp
            · intro p hp
              rcases List.mem_cons.mp hp with rfl | hp'
              · exact hefw.1
              · exact hwalks' p hp'
            · intro m' hm' p hp
              have hmm : m' = m := by
                simpa using hm'.symm
              rcases List.mem_cons.mp hp with rfl | hp'
              · omega
              · rw [hsome' m rfl p hp']
                omega
            · intro h
              exact absurd h (by simp)
          · rw [if_neg hlen]
            obtain ⟨D', hD', hwalks', hsome', _⟩ :=
              ih rest V out (some m) inv' (by
                simp only [List.length_cons] at hfuel
                omega)
            refine ⟨D', hD', hwalks', ?_, ?_⟩
            · intro m' hm' p hp
              have hmm : m' = m := by simpa using hm'.symm
              rw [hsome' m rfl p hp]
              omega
            · intro h
              exact absurd h (by simp)
      · rw [if_neg hc]
        by_cases hcV : c ∈ V
        · rw [if_pos hcV]
          have inv' := inv_pop_visited inv hlast hc hcV
          obtain ⟨D', hD', hwalks', hsome', hnone'⟩ :=
            ih rest V out ml inv' (by
              simp only [List.length_cons] at hfuel
              omega)
          exact ⟨D', hD', hwalks', hsome', hnone'⟩
        · rw [if_neg hcV]
          have inv' := inv_expand hs inv hlast hc hcV
          have hext := length_extensions_le q0 c
          obtain ⟨D', hD', hwalks', hsome', hnone'⟩ :=
            ih (rest ++ extensions q0 c) (c :: V) out ml inv' (by
              simp only [List.length_cons] at hfuel
              rw [List.length_append, List.length_cons]
              omega)
          exact ⟨D', hD', hwalks', hsome', hnone'⟩

lemma bfs_init_inv {s e : Cell} : BfsInv s e [[s]] [] none := by
  have hsefw : IsEFW s e s [s] := ⟨isWalk_single s, by simp⟩
  refine ⟨?_, ?_, ?_, List.nodup_nil, by simp, by simp, ?_, ?_, by simp, ?_⟩
  · intro q hq
    have : q = [s] := by simpa using hq
    exact ⟨s, this ▸ hsefw⟩
  · simp
  · intro a ha b hb
    have ha' : a = [s] := by simpa using ha
    have hb' : b = [s] := by simpa using hb
    subst ha'; subst hb'
    simp
  · intro c _ _ n hmin q0 hq0 hle
    have hq0' : q0 = [s] := (by simpa using hq0 : [s] = q0).symm
    subst hq0'
    obtain ⟨p, hp, hpl⟩ := hmin.1
    have hn1 : n = 1 := by
      have := hp.1.length_pos
      simp at hle
      omega
    obtain ⟨hps, hsc⟩ := hp.1.eq_singleton (by omega)
    refine ⟨[s], by simp, ?_, by simpa using hn1.symm⟩
    exact hsc ▸ hsefw
  · intro _ n hmin q0 hq0 hle
    have hq0' : q0 = [s] := (by simpa using hq0 : [s] = q0).symm
    subst hq0'
    obtain ⟨p, hp, hpl⟩ := hmin.1
    have hn1 : n = 1 := by
      have := hp.1.length_pos
      simp at hle
      omega
    obtain ⟨hps, hsc⟩ := hp.1.eq_singleton (by omega)
    refine ⟨[s], by simp, ?_, by simpa using hn1.symm⟩
    exact hsc ▸ hsefw
  · intro _ _
    simp

theorem bfs_paths_spec {s e : Cell} (hs : is_valid s = true) :
    (∀ p ∈ bfs_paths s e, IsWalk s e p) ∧
    (∀ n, IsShortest s e n → bfs_paths s e ≠ [] ∧
      ∀ p ∈ bfs_paths s e, p.length = n) := by
  obtain ⟨D, hD, hwalks, _, hnone⟩ :=
    bfs_loop_spec hs 600 [[s]] [] [] none bfs_init_inv (by norm_num)
  have hbp : bfs_paths s e = D := by
    unfold bfs_paths
    rw [hD]
    simp
  constructor
  · intro p hp
    exact hwalks p (hbp ▸ hp)
  · intro n hn
    obtain ⟨hne, hlen⟩ := hnone rfl n hn
    exact ⟨by rw [hbp]; exact hne, fun p hp => hlen p (hbp ▸ hp)⟩

lemma dup_split {α : Type} :
    ∀ l : List α, ¬ l.Nodup → ∃ a l1 l2 l3, l = l1 ++ a :: l2 ++ a :: l3 := by
  intro l
  induction l with
  | nil => intro h; exact absurd List.nodup_nil h
  | cons x t ih =>
    intro h
    by_cases hx : x ∈ t
    · obtain ⟨s1, s2, rfl⟩ := List.append_of_mem hx
      exact ⟨x, [], s1, s2, by simp⟩
    · have ht : ¬ t.Nodup := fun hnd => h (List.nodup_cons.mpr ⟨hx, hnd⟩)
      obtain ⟨a, l1, l2, l3, rfl⟩ := ih ht
      exact ⟨a, x :: l1, l2, l3, by simp⟩

lemma getLast?_append_cons {α : Type} (l y : List α) (a : α) :
    (l ++ a :: y).getLast? = (a :: y).getLast? := by
  rw [List.getLast?_append]
  cases h : (a :: y).getLast? with
  | none =>
    exact absurd (List.getLast?_eq_none_iff.mp h) (by simp)
  | some b => rfl

lemma walk_surgery {s e a : Cell} {l1 l2 l3 : List Cell}
    (h : IsWalk s e (l1 ++ a :: l2 ++ a :: l3)) : IsWalk s e (l1 ++ a :: l3) := by
  have hassoc : l1 ++ a :: l2 ++ a :: l3 = (l1 ++ a :: l2) ++ a :: l3 := by
    simp
  refine ⟨?_, ?_, ?_⟩
  · cases l1 with
    | nil =>
      have := h.1
      simpa using this
    | cons b t =>
      have := h.1
      rw [List.head?_append_of_ne_nil _ (by simp)] at this ⊢
      exact this
  · have := h.2.1
    rw [hassoc, getLast?_append_cons] at this
    rw [getLast?_append_cons]
    exact this
  · have hch := h.2.2
    rw [hassoc, List.chain'_append] at hch
    obtain ⟨hch1, hch2, hglue⟩ := hch
    rw [List.chain'_append] at hch1
    obtain ⟨hl1, hal2, hglue1⟩ := hch1
    rw [show l1 ++ a :: l3 = l1 ++ (a :: l3) from rfl, List.chain'_append]
    refine ⟨hl1, hch2, ?_⟩
    intro x hx y hy
    simp only [List.head?_cons, Option.mem_def, Option.some.injEq] at hy
    subst hy
    exact hglue1 x hx a rfl

lemma shortest_walk_nodup {s e : Cell} {p : List Cell} {n : ℕ}
    (hw : IsWalk s e p) (hn : IsShortest s e n) (hl : p.length = n) : p.Nodup := by
  by_contra h
  obtain ⟨a, l1, l2, l3, rfl⟩ := dup_split _ h
  have hw' := walk_surgery hw
  have hge := hn.2 _ hw'
  simp only [List.length_append, List.length_cons] at hl hge
  omega

lemma bfs_paths_self (c : Cell) : bfs_paths c c = [[c]] := by
  show bfs_loop c 600 [[c]] [] [] none = [[c]]
  rw [show (600 : ℕ) = 599 + 1 from rfl, bfs_loop_cons]
  rw [show ([c] : List Cell).getLast?.getD (0, 0) = c from rfl, if_pos rfl]
  simp only [Option.elim_none]
  rw [bfs_loop_nil]
  simp

lemma isShortest_two {s e : Cell} (hne : s ≠ e) (hw : IsWalk s e [s, e]) :
    IsShortest s e 2 := by
  refine ⟨⟨[s, e], hw, rfl⟩, ?_⟩
  intro p hp
  rcases Nat.lt_or_ge p.length 2 with h | h
  · have h1 := hp.length_pos
    have hl1 : p.length = 1 := by omega
    obtain ⟨_, hse⟩ := hp.eq_singleton hl1
    exact absurd hse hne
  · exact h

lemma shortest_a1_e6 : IsShortest ((0 : ℤ), (0 : ℤ)) ((5 : ℤ), (4 : ℤ)) 4 := by
  constructor
  · exact ⟨[(0, 0), (2, 1), (3, 3), (5, 4)], by decide, rfl⟩
  · intro p hp
    exact walk_length_lower
      (by decide : ((5 : ℤ), (4 : ℤ)) ∉ reachN ((0 : ℤ), (0 : ℤ)) 2) hp

/-!
Claim theorems.  Each theorem settles one claim of the specification
against the embedded program.
-/

/-- Claim C1: for every pair of valid start and end cells, every Path
returned by `bfs_paths` has the same length, and that length is the
graph-theoretic shortest-path length between start and end in knight moves
(a walk of `n` cells makes `n - 1` knight moves); no returned Path is
longer. -/
theorem claim_C1 {s e : Cell} (hs : is_valid s = true) (_he : is_valid e = true)
    {n : ℕ} (hn : IsShortest s e n) : ∀ p ∈ bfs_paths s e, p.length = n :=
  fun p hp => ((bfs_paths_spec hs).2 n hn).2 p hp

/-- Witness for C1 at start a1 = (0,0), end b3 = (2,1): the shortest walk
has 2 cells (one knight move) and every returned path has 2 cells. -/
theorem claim_C1_witness :
    is_valid ((0 : ℤ), (0 : ℤ)) = true ∧ is_valid ((2 : ℤ), (1 : ℤ)) = true ∧
    IsShortest ((0 : ℤ), (0 : ℤ)) ((2 : ℤ), (1 : ℤ)) 2 ∧
    ∀ p ∈ bfs_paths ((0 : ℤ), (0 : ℤ)) ((2 : ℤ), (1 : ℤ)), p.length = 2 := by
  have hsh : IsShortest ((0 : ℤ), (0 : ℤ)) ((2 : ℤ), (1 : ℤ)) 2 :=
    isShortest_two (by decide) (by decide)
  exact ⟨by decide, by decide, hsh, claim_C1 (by decide) (by decide) hsh⟩

set_option maxRecDepth 100000 in
/-- Claim C2 (code bug): the returned collection is NOT complete.  From
a1 = (0,0) to e6 = (5,4) the walk [(0,0), (1,2), (3,3), (5,4)] is a
minimal-length knight walk (3 moves, the shortest distance), yet it is not
in the collection returned by `bfs_paths`: it merges with the earlier
enqueued walk through the shared intermediate cell (3,3), which the
visited-on-dequeue check silently drops. -/
theorem claim_C2 :
    IsWalk ((0 : ℤ), (0 : ℤ)) ((5 : ℤ), (4 : ℤ)) [(0, 0), (1, 2), (3, 3), (5, 4)] ∧
    ([(0, 0), (1, 2), (3, 3), (5, 4)] : List Cell).length = 4 ∧
    IsShortest ((0 : ℤ), (0 : ℤ)) ((5 : ℤ), (4 : ℤ)) 4 ∧
    [((0 : ℤ), (0 : ℤ)), (1, 2), (3, 3), (5, 4)] ∉
      bfs_paths ((0 : ℤ), (0 : ℤ)) ((5 : ℤ), (4 : ℤ)) :=
  ⟨by decide, rfl, shortest_a1_e6, by decide⟩

/-- Claim C3 counterexample: the claim asserts that the minimum knight
distance from a1 = (0,0) to c2 = (1,2) is 3 moves (shortest walks of 4
cells).  In fact c2 is one knight move from a1 (offset (1,2)), so the
shortest walks have 2 cells, and 4 is not the shortest length. -/
theorem claim_C3_counterexample :
    IsShortest ((0 : ℤ), (0 : ℤ)) ((1 : ℤ), (2 : ℤ)) 2 ∧
    ¬ IsShortest ((0 : ℤ), (0 : ℤ)) ((1 : ℤ), (2 : ℤ)) 4 := by
  have h2 : IsShortest ((0 : ℤ), (0 : ℤ)) ((1 : ℤ), (2 : ℤ)) 2 :=
    isShortest_two (by decide) (by decide)
  exact ⟨h2, fun h4 => absurd (h4.unique_len h2) (by decide)⟩

/-- Claim C3 (amended): for start a1 = (0,0) and end c2 = (1,2), the
minimum distance is 1 move (shortest walks of 2 cells), the result of
`bfs_paths` contains at least one Path, and all returned Paths have
exactly 2 cells. -/
theorem claim_C3_amended :
    IsShortest ((0 : ℤ), (0 : ℤ)) ((1 : ℤ), (2 : ℤ)) 2 ∧
    bfs_paths ((0 : ℤ), (0 : ℤ)) ((1 : ℤ), (2 : ℤ)) ≠ [] ∧
    ∀ p ∈ bfs_paths ((0 : ℤ), (0 : ℤ)) ((1 : ℤ), (2 : ℤ)), p.length = 2 := by
  have h2 : IsShortest ((0 : ℤ), (0 : ℤ)) ((1 : ℤ), (2 : ℤ)) 2 :=
    isShortest_two (by decide) (by decide)
  obtain ⟨hne, hlen⟩ := (bfs_paths_spec (by decide)).2 2 h2
  exact ⟨h2, hne, hlen⟩

/-- Claim C4: for every pair of valid cells (equal or distinct),
`bfs_paths` returns a non-empty collection: the knight graph on the 8×8
board is connected, so at least one path is always found. -/
theorem claim_C4 {s e : Cell} (hs : is_valid s = true)
    (he : is_valid e = true) : bfs_paths s e ≠ [] := by
  obtain ⟨n, hn⟩ := exists_isShortest (connectivity hs he)
  exact ((bfs_paths_spec hs).2 n hn).1

/-- Witness for C4 at the opposite corners a1 = (0,0) and h8 = (7,7). -/
theorem claim_C4_witness :
    is_valid ((0 : ℤ), (0 : ℤ)) = true ∧ is_valid ((7 : ℤ), (7 : ℤ)) = true ∧
    bfs_paths ((0 : ℤ), (0 : ℤ)) ((7 : ℤ), (7 : ℤ)) ≠ [] :=
  ⟨by decide, by decide, claim_C4 (by decide) (by decide)⟩

/-- Claim C5: for every valid cell `c`, searching from `c` to `c` returns
exactly one Path, of length 1, containing only the cell `c`: the start
path immediately matches the end before any expansion. -/
theorem claim_C5 {c : Cell} (_hc : is_valid c = true) :
    bfs_paths c c = [[c]] :=
  bfs_paths_self c

/-- Witness for C5 at d4 = (3,3). -/
theorem claim_C5_witness :
    is_valid ((3 : ℤ), (3 : ℤ)) = true ∧
    bfs_paths ((3 : ℤ), (3 : ℤ)) ((3 : ℤ), (3 : ℤ)) = [[((3 : ℤ), (3 : ℤ))]] :=
  ⟨by decide, claim_C5 (by decide)⟩

/-- Claim C6: every Path returned by `bfs_paths` for valid endpoints is a
well-formed knight walk: it starts at `start`, ends at `end`, contains
only cells with both coordinates in [0,7], and every two consecutive
cells differ by exactly one of the 8 knight move offsets. -/
theorem claim_C6 {s e : Cell} (hs : is_valid s = true)
    (_he : is_valid e = true) : ∀ p ∈ bfs_paths s e,
    p.head? = some s ∧ p.getLast? = some e ∧
    (∀ c ∈ p, is_valid c = true) ∧
    p.Chain' (fun a b => (b.1 - a.1, b.2 - a.2) ∈ knight_moves) := by
  intro p hp
  have hw := (bfs_paths_spec hs).1 p hp
  exact ⟨hw.1, hw.2.1, hw.valid_of_mem hs,
    List.Chain'.imp (fun a b h => h.1) hw.2.2⟩

/-- Witness for C6 at a1 = (0,0) to b3 = (2,1). -/
theorem claim_C6_witness :
    is_valid ((0 : ℤ), (0 : ℤ)) = true ∧ is_valid ((2 : ℤ), (1 : ℤ)) = true ∧
    ∀ p ∈ bfs_paths ((0 : ℤ), (0 : ℤ)) ((2 : ℤ), (1 : ℤ)),
      p.head? = some ((0 : ℤ), (0 : ℤ)) ∧ p.getLast? = some ((2 : ℤ), (1 : ℤ)) ∧
      (∀ c ∈ p, is_valid c = true) ∧
      p.Chain' (fun a b => (b.1 - a.1, b.2 - a.2) ∈ knight_moves) :=
  ⟨by decide, by decide, claim_C6 (by decide) (by decide)⟩

/-- Claim C10: every Path returned by `bfs_paths` for valid endpoints is
simple: no cell occurs twice in it (a minimal-length walk cannot revisit
a cell, since cutting the loop would give a shorter walk). -/
theorem claim_C10 {s e : Cell} (hs : is_valid s = true)
    (he : is_valid e = true) : ∀ p ∈ bfs_paths s e, p.Nodup := by
  intro p hp
  obtain ⟨n, hn⟩ := exists_isShortest (connectivity hs he)
  exact shortest_walk_nodup ((bfs_paths_spec hs).1 p hp) hn
    (((bfs_paths_spec hs).2 n hn).2 p hp)

/-- Witness for C10 at a1 = (0,0) to h8 = (7,7). -/
theorem claim_C10_witness :
    is_valid ((0 : ℤ), (0 : ℤ)) = true ∧ is_valid ((7 : ℤ), (7 : ℤ)) = true ∧
    ∀ p ∈ bfs_paths ((0 : ℤ), (0 : ℤ)) ((7 : ℤ), (7 : ℤ)), p.Nodup :=
  ⟨by decide, by decide, claim_C10 (by decide) (by decide)⟩

/-!
Notation converter lemmas and claims.
-/

instance {ε α : Type} [DecidableEq ε] [DecidableEq α] : DecidableEq (Except ε α)
  | Except.ok a, Except.ok b => decidable_of_iff (a = b) (by simp)
  | Except.error a, Except.error b => decidable_of_iff (a = b) (by simp)
  | Except.ok _, Except.error _ => isFalse (by simp)
  | Except.error _, Except.ok _ => isFalse (by simp)

lemma file_char_cases {fc : Char}
    (h : ('a' ≤ fc ∧ fc ≤ 'h') ∨ ('A' ≤ fc ∧ fc ≤ 'H')) :
    fc ∈ (['a','b','c','d','e','f','g','h',
           'A','B','C','D','E','F','G','H'] : List Char) := by
  have hofnat := Char.ofNat_toNat fc
  rcases h with ⟨h1, h2⟩ | ⟨h1, h2⟩ <;> rw [Char.le_def] at h1 h2
  · have hlo : 97 ≤ fc.toNat := h1
    have hhi : fc.toNat ≤ 104 := h2
    set n := fc.toNat with hn
    interval_cases n <;> (rw [← hofnat]; decide)
  · have hlo : 65 ≤ fc.toNat := h1
    have hhi : fc.toNat ≤ 72 := h2
    set n := fc.toNat with hn
    interval_cases n <;> (rw [← hofnat]; decide)

lemma digit_char_cases {rc : Char} (h : '1' ≤ rc ∧ rc ≤ '8') :
    rc ∈ (['1','2','3','4','5','6','7','8'] : List Char) := by
  have hofnat := Char.ofNat_toNat rc
  obtain ⟨h1, h2⟩ := h
  rw [Char.le_def] at h1 h2
  have hlo : 49 ≤ rc.toNat := h1
  have hhi : rc.toNat ≤ 56 := h2
  set n := rc.toNat with hn
  interval_cases n <;> (rw [← hofnat]; decide)

lemma digit_toLower {rc : Char} (h : '1' ≤ rc ∧ rc ≤ '8') : rc.toLower = rc := by
  have hmem := digit_char_cases h
  fin_cases hmem <;> decide

lemma format_of_parse {fc rc : Char}
    (hf : ('a' ≤ fc ∧ fc ≤ 'h') ∨ ('A' ≤ fc ∧ fc ≤ 'H'))
    (hr : '1' ≤ rc ∧ rc ≤ '8') :
    coord_to_alg (((rc.toNat : ℤ) - ('1'.toNat : ℤ)),
        (("abcdefgh".data.indexOf fc.toLower : ℤ))) =
      Except.ok (String.mk [fc.toLower, rc]) := by
  have h1 := file_char_cases hf
  have h2 := digit_char_cases hr
  fin_cases h1 <;> fin_cases h2 <;> decide

/-- The lowercase form of a string, used to state the spec's round-trip
law `format(parse(s)) = lowercase(s)`. -/
def lowercaseStr (t : String) : String := String.mk (t.data.map Char.toLower)

lemma alg_to_coord_eq_two {t : String} {fc rc : Char} (h : t.data = [fc, rc]) :
    alg_to_coord t =
      if (('a' ≤ fc ∧ fc ≤ 'h') ∨ ('A' ≤ fc ∧ fc ≤ 'H')) ∧
          ('1' ≤ rc ∧ rc ≤ '8') then
        Except.ok (((rc.toNat : ℤ) - ('1'.toNat : ℤ)),
          (("abcdefgh".data.indexOf fc.toLower : ℤ)))
      else
        Except.error ("Invalid algebraic notation: " ++ t) := by
  unfold alg_to_coord
  rw [h]

lemma coord_to_alg_eq (c : Cell) :
    coord_to_alg c =
      if 0 ≤ c.1 ∧ c.1 < 8 ∧ 0 ≤ c.2 ∧ c.2 < 8 then
        Except.ok (String.mk ["abcdefgh".data.getD c.2.toNat 'a',
          Char.ofNat ('0'.toNat + (c.1.toNat + 1))])
      else
        Except.error ("Invalid coordinate: " ++ toString c) := rfl

/-- Claim C7: the notation conversions round-trip exactly: formatting a
valid cell and parsing the result gives the cell back, and parsing a
syntactically valid two-character string then formatting gives the
lowercase form of the original string. -/
theorem claim_C7 :
    (∀ c : Cell, is_valid c = true →
      Except.bind (coord_to_alg c) alg_to_coord = Except.ok c) ∧
    (∀ t : String, ∀ fc rc : Char, t.data = [fc, rc] → ∀ c : Cell,
      alg_to_coord t = Except.ok c →
      coord_to_alg c = Except.ok (lowercaseStr t)) := by
  constructor
  · rintro ⟨r, co⟩ hval
    simp only [is_valid, board_size, decide_eq_true_eq] at hval
    obtain ⟨h1, h2, h3, h4⟩ := hval
    interval_cases r <;> interval_cases co <;> decide
  · intro t fc rc hdata c hok
    rw [alg_to_coord_eq_two hdata] at hok
    by_cases hg : (('a' ≤ fc ∧ fc ≤ 'h') ∨ ('A' ≤ fc ∧ fc ≤ 'H')) ∧
        ('1' ≤ rc ∧ rc ≤ '8')
    · rw [if_pos hg] at hok
      have hc : c = (((rc.toNat : ℤ) - ('1'.toNat : ℤ)),
          (("abcdefgh".data.indexOf fc.toLower : ℤ))) := by
        cases hok
        rfl
      subst hc
      rw [format_of_parse hg.1 hg.2]
      unfold lowercaseStr
      rw [hdata]
      simp only [List.map_cons, List.map_nil]
      rw [digit_toLower hg.2]
    · rw [if_neg hg] at hok
      exact absurd hok (by simp)

/-- Witness for C7: the cell (3,4) formats to "e4" and parses back, and
parsing the two-character string "E4" then formatting returns "e4", the
lowercase form. -/
theorem claim_C7_witness :
    is_valid ((3 : ℤ), (4 : ℤ)) = true ∧
    Except.bind (coord_to_alg ((3 : ℤ), (4 : ℤ))) alg_to_coord =
      Except.ok ((3 : ℤ), (4 : ℤ)) ∧
    ("E4" : String).data = ['E', '4'] ∧
    alg_to_coord "E4" = Except.ok ((3 : ℤ), (4 : ℤ)) ∧
    coord_to_alg ((3 : ℤ), (4 : ℤ)) = Except.ok (lowercaseStr "E4") :=
  ⟨by decide, claim_C7.1 ((3 : ℤ), (4 : ℤ)) (by decide), rfl, by decide,
    claim_C7.2 "E4" 'E' '4' rfl ((3 : ℤ), (4 : ℤ)) (by decide)⟩

/-- Claim C8 (code bug): `alg_to_coord` does NOT raise on every input
other than the exact two-character letter-digit pattern: Python's `$`
anchor in `re.match(r'^([a-hA-H])([1-8])$', ...)` also matches just
before a single newline that ends the string, so the three-character
input "e4" + newline is accepted and parsed as (3, 4) instead of raising
the invalid-notation error the claim requires for wrong-length inputs.
The claim's concrete scenarios do hold: parsing "i9" raises, and "E4"
parses like "e4", to the cell (3, 4). -/
theorem claim_C8 :
    ("e4\n" : String).data = ['e', '4', '\n'] ∧
    alg_to_coord "e4\n" = Except.ok ((3 : ℤ), (4 : ℤ)) ∧
    (∃ msg, alg_to_coord "i9" = Except.error msg) ∧
    alg_to_coord "E4" = alg_to_coord "e4" ∧
    alg_to_coord "E4" = Except.ok ((3 : ℤ), (4 : ℤ)) :=
  ⟨rfl, by decide, ⟨_, rfl⟩, by decide, by decide⟩

/-- Claim C9: `coord_to_alg` succeeds exactly when both coordinates lie in
[0,7], and raises the invalid-coordinate error otherwise; in particular
formatting (8,0) raises because the row is out of range. -/
theorem claim_C9 :
    (∀ c : Cell, (∃ t, coord_to_alg c = Except.ok t) ↔ is_valid c = true) ∧
    (∀ c : Cell, is_valid c = false →
      coord_to_alg c = Except.error ("Invalid coordinate: " ++ toString c)) ∧
    (∃ msg, coord_to_alg ((8 : ℤ), (0 : ℤ)) = Except.error msg) := by
  refine ⟨?_, ?_, ⟨_, rfl⟩⟩
  · intro c
    constructor
    · rintro ⟨t, ht⟩
      rw [coord_to_alg_eq] at ht
      by_cases hb : 0 ≤ c.1 ∧ c.1 < 8 ∧ 0 ≤ c.2 ∧ c.2 < 8
      · simp [is_valid, board_size]
        exact hb
      · rw [if_neg hb] at ht
        exact absurd ht (by simp)
    · intro hval
      have hb : 0 ≤ c.1 ∧ c.1 < 8 ∧ 0 ≤ c.2 ∧ c.2 < 8 := by
        simpa [is_valid, board_size] using hval
      exact ⟨_, by rw [coord_to_alg_eq, if_pos hb]⟩
  · intro c hval
    have hb : ¬ (0 ≤ c.1 ∧ c.1 < 8 ∧ 0 ≤ c.2 ∧ c.2 < 8) := by
      intro hb
      have : is_valid c = true := by
        simp [is_valid, board_size]
        exact hb
      rw [this] at hval
      exact absurd hval (by simp)
    rw [coord_to_alg_eq, if_neg hb]

/-- Witness for C9: the valid cell (3,4) formats successfully; the invalid
cell (8,0) yields the invalid-coordinate error. -/
theorem claim_C9_witness :
    (∃ t, coord_to_alg ((3 : ℤ), (4 : ℤ)) = Except.ok t) ∧
    coord_to_alg ((8 : ℤ), (0 : ℤ)) =
      Except.error ("Invalid coordinate: " ++ toString ((8 : ℤ), (0 : ℤ))) :=
  ⟨(claim_C9.1 ((3 : ℤ), (4 : ℤ))).mpr (by decide),
    claim_C9.2.1 ((8 : ℤ), (0 : ℤ)) (by decide)⟩
